import Mathlib

/-
Verification of the request-aware KV-cache routing and offload layer
described by this repository's tutorial material.  The repository itself
ships only notebooks and configuration templates; the core system they
describe (Block Store, Cache Directory, Tier Migrator, Request Router,
Remote Cache Protocol Client) is modelled here from the specification's
words, and its stated properties are proved over that model.  The two
Kubernetes/Helm configuration fragments that do appear verbatim in the
notebooks (shared-kv-config.yaml and redis-config.yaml) are embedded
directly from the source.
-/

set_option maxHeartbeats 1000000

namespace KVCore

/-- Modelled from the spec: the three storage tiers of the cache
(GPU memory, host memory, remote shared store). -/
inductive Tier
  | gpu
  | host
  | remote
deriving DecidableEq

/-- Modelled from the spec: the error taxonomy of §7 (OutOfCapacity,
Conflict, RemoteUnavailable, NotFound). -/
inductive CacheError
  | outOfCapacity
  | conflict
  | remoteUnavailable
  | notFound
deriving DecidableEq

/-- Modelled from the spec: a fixed-size KV-cache block with its id,
current tier, reference count, last-access timestamp and flags (§3). -/
structure Block where
  blockId : Nat
  tier : Tier
  refCount : Nat
  lastAccess : Nat
  pinned : Bool
  dirty : Bool
deriving DecidableEq

/-- Modelled from the spec: a Cache Entry's reference to one block of its
run: either a block present in some tier, or the "not present" marker left
behind by eviction (§4.1). -/
inductive BlockRef
  | present (bid : Nat) (t : Tier)
  | absent
deriving DecidableEq

/-- Modelled from the spec: a Cache Entry maps a prefix (the fingerprint is
modelled by the token sequence itself, content hashing being injective by
the spec's own assumption in §4.2) to its ordered run of block
references (§3). -/
structure CacheEntry where
  tokens : List Nat
  run : List BlockRef
deriving DecidableEq

/-- Modelled from the spec: the shared Cache Directory (§4.2). -/
structure CacheDir where
  entries : List CacheEntry
deriving DecidableEq

/-- Modelled from the spec: the Block Store over a tiered pool, with a
per-tier capacity in blocks, the live blocks, a fresh-id source and a
logical clock for last-access stamps (§4.1). -/
structure BlockStore where
  gpuCap : Nat
  hostCap : Nat
  remoteCap : Nat
  blocks : List Block
  nextId : Nat
  clock : Nat
deriving DecidableEq

/-- Modelled from the spec: the shared state the Block Store and the Cache
Directory form together (§2, §5). -/
structure SysState where
  store : BlockStore
  dir : CacheDir
deriving DecidableEq

/-- Modelled from the spec: the remote shared tier seen through the Remote
Cache Protocol Client: an availability flag and the keyed byte payloads
with their ttl (§4.5). -/
structure RemoteStore where
  available : Bool
  kv : List (Nat × List Nat × Nat)
deriving DecidableEq

/-- Modelled from the spec: `put(blockID, bytes, ttl)` of the Remote Cache
Protocol Client: acknowledgment (the updated store) or RemoteUnavailable
(§4.5). -/
def put (s : RemoteStore) (bid : Nat) (bytes : List Nat) (ttl : Nat) :
    Except CacheError RemoteStore :=
  if s.available then .ok { s with kv := (bid, bytes, ttl) :: s.kv }
  else .error .remoteUnavailable

/-- Modelled from the spec: `get(blockID)` of the Remote Cache Protocol
Client: the stored bytes, NotFound, or RemoteUnavailable (§4.5). -/
def get (s : RemoteStore) (bid : Nat) : Except CacheError (List Nat) :=
  if s.available then
    match s.kv.find? (fun p => p.1 == bid) with
    | some p => .ok p.2.1
    | none => .error .notFound
  else .error .remoteUnavailable

/-- C8: put followed by get on the Remote Cache Protocol Client returns
the bytes that were stored, whenever the remote tier is available. -/
theorem put_get_roundtrip (s : RemoteStore) (bid : Nat) (bytes : List Nat)
    (ttl : Nat) (h : s.available = true) :
    ∃ s', put s bid bytes ttl = .ok s' ∧ get s' bid = .ok bytes := by
  refine ⟨{ s with kv := (bid, bytes, ttl) :: s.kv }, ?_, ?_⟩
  · simp [put, h]
  · simp [get, h, List.find?]

/-- Witness for C8 at a concrete store, key and payload. -/
theorem put_get_roundtrip_witness :
    ∃ s', put ⟨true, []⟩ 7 [1, 2, 3] 60 = .ok s' ∧ get s' 7 = .ok [1, 2, 3] :=
  put_get_roundtrip ⟨true, []⟩ 7 [1, 2, 3] 60 rfl

end KVCore

namespace TutorialConfig

/-- The remoteSharedCache section of shared-kv-config.yaml as written by the
notebook (src/unnamed/part_001, lines 87-90). -/
structure RemoteSharedCacheConfig where
  enabled : Bool
  endpoint : String
  maxCacheSize : String
deriving DecidableEq

/-- The lmcacheConfig section of shared-kv-config.yaml (lines 84-90). -/
structure LmcacheConfig where
  enabled : Bool
  cpuOffloadingBufferSize : String
  remoteSharedCache : RemoteSharedCacheConfig
deriving DecidableEq

/-- The vllmConfig section of shared-kv-config.yaml (lines 79-82). -/
structure VllmConfig where
  enableChunkedPrefill : Bool
  enablePrefixCaching : Bool
  maxModelLen : Nat
deriving DecidableEq

/-- The modelSpec entry of shared-kv-config.yaml (lines 68-92). -/
structure ModelSpec where
  name : String
  repository : String
  tag : String
  modelURL : String
  replicaCount : Nat
  requestCPU : Nat
  requestMemory : String
  requestGPU : Nat
  pvcStorage : String
  vllmConfig : VllmConfig
  lmcacheConfig : LmcacheConfig
deriving DecidableEq

/-- shared-kv-config.yaml as the notebook writes it. -/
def sharedKvConfig : ModelSpec :=
  { name := "mistral"
    repository := "lmcache/vllm-openai"
    tag := "latest"
    modelURL := "mistralai/Mistral-7B-Instruct-v0.3"
    replicaCount := 2
    requestCPU := 10
    requestMemory := "40Gi"
    requestGPU := 1
    pvcStorage := "50Gi"
    vllmConfig :=
      { enableChunkedPrefill := false
        enablePrefixCaching := true
        maxModelLen := 16384 }
    lmcacheConfig :=
      { enabled := true
        cpuOffloadingBufferSize := "20"
        remoteSharedCache :=
          { enabled := true
            endpoint := "redis:6379"
            maxCacheSize := "50Gi" } } }

/-- The Deployment of redis-config.yaml (src/unnamed/part_001,
lines 147-172). -/
structure K8sDeployment where
  name : String
  replicas : Nat
  selectorApp : String
  labelApp : String
  containerName : String
  image : String
  containerPort : Nat
deriving DecidableEq

/-- The Service of redis-config.yaml (lines 174-183). -/
structure K8sService where
  name : String
  selectorApp : String
  port : Nat
  targetPort : Nat
deriving DecidableEq

/-- redis-config.yaml's Deployment as the notebook writes it. -/
def redisDeployment : K8sDeployment :=
  { name := "redis"
    replicas := 1
    selectorApp := "redis"
    labelApp := "redis"
    containerName := "redis"
    image := "redis:latest"
    containerPort := 6379 }

/-- redis-config.yaml's Service as the notebook writes it. -/
def redisService : K8sService :=
  { name := "redis"
    selectorApp := "redis"
    port := 6379
    targetPort := 6379 }

/-- The cluster-internal address a Kubernetes Service answers on: its
metadata name joined with its exposed port. -/
def serviceAddress (svc : K8sService) : String :=
  svc.name ++ ":" ++ toString svc.port

/-- C10: the lmcacheConfig remoteSharedCache endpoint "redis:6379" is
exactly the address of the Service deployed by redis-config.yaml, that
Service's target port is the Redis container's port, and its selector
matches the Deployment's pod label, so the configured cache endpoint
resolves to the deployed Redis service. -/
theorem sharedKv_endpoint_consistent :
    sharedKvConfig.lmcacheConfig.remoteSharedCache.endpoint =
      serviceAddress redisService ∧
    redisService.targetPort = redisDeployment.containerPort ∧
    redisService.selectorApp = redisDeployment.labelApp ∧
    sharedKvConfig.lmcacheConfig.remoteSharedCache.enabled = true := by
  refine ⟨?_, rfl, rfl, rfl⟩
  decide

end TutorialConfig

namespace KVCore

/-- Modelled from the spec: the phases of one block's migration between
tiers (§4.3): not started, bytes being copied, target copy durably
written, directory tier pointer flipped, source copy freed, or failed
mid-copy. -/
inductive MigPhase
  | idle
  | copying
  | copied
  | flipped
  | done
  | failed
deriving DecidableEq

/-- Modelled from the spec: the migration-relevant state of one block: the
tier the Cache Directory currently points to, the tiers that durably hold
the block's bytes, and the migration phase (§4.3). -/
structure MigState where
  dirTier : Tier
  present : List Tier
  phase : MigPhase
deriving DecidableEq

/-- Modelled from the spec: the events of one `promote(blockID, fromTier,
toTier)` migration: start copying, finish the durable target write, fail
mid-copy, flip the directory pointer, free the source copy (§4.3). -/
inductive MigEvent
  | beginCopy
  | copyDone
  | fail
  | flip
  | freeSource
deriving DecidableEq

/-- Modelled from the spec: one step of `promote` as a copy-then-flip
protocol: the bytes are copied first, the directory pointer flips only
after the target copy is durably written, and the source copy is freed
only after the flip; a mid-copy failure leaves everything as it was
(§4.3, §7). Events that are out of order for the current phase do
nothing. -/
def promoteStep (fromT toT : Tier) (s : MigState) (ev : MigEvent) : MigState :=
  match s.phase, ev with
  | .idle, .beginCopy => { s with phase := .copying }
  | .copying, .copyDone => { s with present := toT :: s.present, phase := .copied }
  | .copying, .fail => { s with phase := .failed }
  | .copied, .flip => { s with dirTier := toT, phase := .flipped }
  | .flipped, .freeSource => { s with present := s.present.erase fromT, phase := .done }
  | _, _ => s

/-- Modelled from the spec: the state before a promotion starts: the
directory points at the source tier, which alone holds the bytes. -/
def migInit (fromT : Tier) : MigState := ⟨fromT, [fromT], .idle⟩

/-- Running a promotion against an arbitrary sequence of events. -/
def migRun (fromT toT : Tier) (evs : List MigEvent) : MigState :=
  evs.foldl (promoteStep fromT toT) (migInit fromT)

/-- The exact shape of the migration state in each phase. -/
def MigInv (fromT toT : Tier) (s : MigState) : Prop :=
  match s.phase with
  | .idle => s.dirTier = fromT ∧ s.present = [fromT]
  | .copying => s.dirTier = fromT ∧ s.present = [fromT]
  | .failed => s.dirTier = fromT ∧ s.present = [fromT]
  | .copied => s.dirTier = fromT ∧ s.present = [toT, fromT]
  | .flipped => s.dirTier = toT ∧ s.present = [toT, fromT]
  | .done => s.dirTier = toT ∧ s.present = [toT]

theorem promoteStep_inv (fromT toT : Tier) (hne : fromT ≠ toT) (s : MigState)
    (ev : MigEvent) (h : MigInv fromT toT s) :
    MigInv fromT toT (promoteStep fromT toT s ev) := by
  obtain ⟨d, p, ph⟩ := s
  have hne' : ¬ (toT == fromT) = true := by
    simp only [beq_iff_eq]
    exact fun hc => hne hc.symm
  cases ph <;> cases ev <;>
    simp_all [MigInv, promoteStep, List.erase_cons, hne']

theorem migFold_inv (fromT toT : Tier) (hne : fromT ≠ toT) :
    ∀ (evs : List MigEvent) (s : MigState), MigInv fromT toT s →
      MigInv fromT toT (evs.foldl (promoteStep fromT toT) s)
  | [], _, h => h
  | ev :: evs, s, h =>
      migFold_inv fromT toT hne evs (promoteStep fromT toT s ev)
        (promoteStep_inv fromT toT hne s ev h)

/-- C4: under any event sequence of a promotion with distinct source and
target, the Cache Directory's tier pointer always names a tier that
durably holds the block (no window where the directory references an
absent copy); a migration that failed mid-copy leaves the source
authoritative and the state exactly as before the copy; and the source
copy is gone only once the migration completed, the directory pointing at
the durably written target (copy-then-flip, no partial state visible). -/
theorem promote_copy_then_flip (fromT toT : Tier) (evs : List MigEvent)
    (hne : fromT ≠ toT) :
    (migRun fromT toT evs).dirTier ∈ (migRun fromT toT evs).present ∧
    ((migRun fromT toT evs).phase = .failed →
      (migRun fromT toT evs).dirTier = fromT ∧
      (migRun fromT toT evs).present = [fromT]) ∧
    (fromT ∉ (migRun fromT toT evs).present →
      (migRun fromT toT evs).phase = .done ∧
      (migRun fromT toT evs).dirTier = toT ∧
      toT ∈ (migRun fromT toT evs).present) := by
  have h : MigInv fromT toT (migRun fromT toT evs) :=
    migFold_inv fromT toT hne evs (migInit fromT) (by simp [MigInv, migInit])
  revert h
  generalize migRun fromT toT evs = s
  intro h
  obtain ⟨d, p, ph⟩ := s
  cases ph <;> simp_all [MigInv]

/-- Witness for C4: a promotion from host to GPU that fails mid-copy. -/
theorem promote_copy_then_flip_witness :
    (migRun .host .gpu [.beginCopy, .fail]).dirTier ∈
      (migRun .host .gpu [.beginCopy, .fail]).present ∧
    ((migRun .host .gpu [.beginCopy, .fail]).phase = .failed →
      (migRun .host .gpu [.beginCopy, .fail]).dirTier = .host ∧
      (migRun .host .gpu [.beginCopy, .fail]).present = [.host]) ∧
    (Tier.host ∉ (migRun .host .gpu [.beginCopy, .fail]).present →
      (migRun .host .gpu [.beginCopy, .fail]).phase = .done ∧
      (migRun .host .gpu [.beginCopy, .fail]).dirTier = .gpu ∧
      Tier.gpu ∈ (migRun .host .gpu [.beginCopy, .fail]).present) :=
  promote_copy_then_flip .host .gpu [.beginCopy, .fail] (by decide)

end KVCore

namespace KVCore

/-- A deterministic one-pass selection of the best element under a strict
preference `beats`: the accumulator keeps the winner seen so far, the
earlier element winning ties. -/
def pickBest {α : Type} (beats : α → α → Bool) : Option α → List α → Option α
  | acc, [] => acc
  | none, x :: xs => pickBest beats (some x) xs
  | some a, x :: xs => pickBest beats (some (if beats x a then x else a)) xs

theorem pickBest_isSome {α : Type} (beats : α → α → Bool) :
    ∀ (xs : List α) (a : α), ∃ v, pickBest beats (some a) xs = some v
  | [], a => ⟨a, rfl⟩
  | x :: xs, a => by
      simp only [pickBest]
      exact pickBest_isSome beats xs _

theorem pickBest_spec {α : Type} (beats : α → α → Bool)
    (hirr : ∀ a, beats a a = false)
    (htrans : ∀ x a v, beats x a = false → beats a v = false → beats x v = false)
    (hswap : ∀ a b v, beats b a = true → beats b v = false → beats a v = false) :
    ∀ (xs : List α) (a v : α), pickBest beats (some a) xs = some v →
      (v = a ∨ v ∈ xs) ∧ beats a v = false ∧ ∀ x ∈ xs, beats x v = false
  | [], a, v, h => by
      simp only [pickBest, Option.some.injEq] at h
      subst h
      exact ⟨Or.inl rfl, hirr a, by simp⟩
  | x :: xs, a, v, h => by
      simp only [pickBest] at h
      by_cases hb : beats x a = true
      · rw [if_pos hb] at h
        obtain ⟨hmem, hxv, hrest⟩ := pickBest_spec beats hirr htrans hswap xs x v h
        refine ⟨?_, hswap a x v hb hxv, ?_⟩
        · rcases hmem with rfl | hmem
          · exact Or.inr (List.mem_cons_self _ _)
          · exact Or.inr (List.mem_cons_of_mem _ hmem)
        · intro y hy
          rcases List.mem_cons.mp hy with rfl | hy
          · exact hxv
          · exact hrest y hy
      · rw [if_neg hb] at h
        rw [Bool.not_eq_true] at hb
        obtain ⟨hmem, hav, hrest⟩ := pickBest_spec beats hirr htrans hswap xs a v h
        refine ⟨?_, hav, ?_⟩
        · rcases hmem with rfl | hmem
          · exact Or.inl rfl
          · exact Or.inr (List.mem_cons_of_mem x hmem)
        · intro y hy
          rcases List.mem_cons.mp hy with rfl | hy
          · exact htrans y a v hb hav
          · exact hrest y hy

/-- Modelled from the spec: a block is an eviction candidate only while it
is unpinned and its reference count is zero (§4.1). -/
def Block.evictable (b : Block) : Bool := !b.pinned && b.refCount == 0

/-- Modelled from the spec: the eviction preference within a tier:
least-recently-used first, ties broken by the lower block id (§4.1). -/
def betterVictim (a b : Block) : Bool :=
  decide (a.lastAccess < b.lastAccess) ||
    (a.lastAccess == b.lastAccess && decide (a.blockId < b.blockId))

/-- Modelled from the spec: the eviction victim within a tier: the
least-recently-used among the tier's unpinned, refcount-0 blocks, ties
broken by lowest block id (§4.1). -/
def selectVictim (s : BlockStore) (t : Tier) : Option Block :=
  pickBest betterVictim none (s.blocks.filter (fun b => b.tier == t && b.evictable))

theorem betterVictim_irrefl (a : Block) : betterVictim a a = false := by
  simp [betterVictim]

theorem betterVictim_le_trans (x a v : Block) (h1 : betterVictim x a = false)
    (h2 : betterVictim a v = false) : betterVictim x v = false := by
  simp only [betterVictim, Bool.or_eq_false_iff, decide_eq_false_iff_not,
    Bool.and_eq_false_iff, beq_eq_false_iff_ne, ne_eq, beq_iff_eq] at *
  omega

theorem betterVictim_swap (a b v : Block) (h1 : betterVictim b a = true)
    (h2 : betterVictim b v = false) : betterVictim a v = false := by
  simp only [betterVictim, Bool.or_eq_false_iff, Bool.or_eq_true,
    decide_eq_false_iff_not, decide_eq_true_eq, Bool.and_eq_false_iff,
    Bool.and_eq_true, beq_eq_false_iff_ne, ne_eq, beq_iff_eq] at *
  omega

/-- C5: within a tier, the selected eviction victim is one of that tier's
blocks, is unpinned with reference count zero (so a pinned block is never
evicted), and among all unpinned refcount-0 blocks of the tier it has the
least last-access time, ties broken by the lowest block id; the choice is
a function of the store, hence deterministic. -/
theorem eviction_lru_deterministic (s : BlockStore) (t : Tier) (v : Block)
    (h : selectVictim s t = some v) :
    v ∈ s.blocks ∧ v.tier = t ∧ v.pinned = false ∧ v.refCount = 0 ∧
      ∀ b ∈ s.blocks, b.tier = t → b.pinned = false → b.refCount = 0 →
        v.lastAccess < b.lastAccess ∨
          (v.lastAccess = b.lastAccess ∧ v.blockId ≤ b.blockId) := by
  unfold selectVictim at h
  have hmemf : ∀ b : Block,
      b ∈ s.blocks.filter (fun b => b.tier == t && b.evictable) ↔
      b ∈ s.blocks ∧ b.tier = t ∧ b.pinned = false ∧ b.refCount = 0 := by
    intro b
    rw [List.mem_filter]
    simp [Block.evictable, and_assoc]
  rcases hfe : s.blocks.filter (fun b => b.tier == t && b.evictable) with
    _ | ⟨b0, bs⟩
  · rw [hfe] at h
    simp [pickBest] at h
  · rw [hfe] at h
    simp only [hfe] at hmemf
    have h' : pickBest betterVictim (some b0) bs = some v := h
    obtain ⟨hmem, hb0v, hrest⟩ :=
      pickBest_spec betterVictim betterVictim_irrefl betterVictim_le_trans
        betterVictim_swap bs b0 v h'
    have hvl : v ∈ b0 :: bs := by
      rcases hmem with rfl | hmem
      · exact List.mem_cons_self _ _
      · exact List.mem_cons_of_mem _ hmem
    obtain ⟨hvs, hvt, hvp, hvr⟩ := (hmemf v).mp hvl
    refine ⟨hvs, hvt, hvp, hvr, ?_⟩
    intro b hb hbt hbp hbr
    have hbl : b ∈ b0 :: bs := (hmemf b).mpr ⟨hb, hbt, hbp, hbr⟩
    have hnb : betterVictim b v = false := by
      rcases List.mem_cons.mp hbl with rfl | hbl
      · exact hb0v
      · exact hrest b hbl
    simp only [betterVictim, Bool.or_eq_false_iff, decide_eq_false_iff_not,
      Bool.and_eq_false_iff, beq_eq_false_iff_ne, ne_eq, beq_iff_eq] at hnb
    omega

/-- A concrete store for the eviction witness: block 5 (recent access),
block 1 (pinned) and block 2 (oldest unpinned access), all refcount 0. -/
def lruDemoStore : BlockStore :=
  ⟨4, 4, 4,
   [⟨5, .gpu, 0, 9, false, false⟩, ⟨1, .gpu, 0, 1, true, false⟩,
    ⟨2, .gpu, 0, 3, false, false⟩], 6, 10⟩

/-- Witness for C5 at a concrete three-block store: block 2 (oldest
unpinned access) is chosen over block 5, and the pinned block 1 is
passed over. -/
theorem eviction_lru_deterministic_witness :
    (⟨2, .gpu, 0, 3, false, false⟩ : Block) ∈ lruDemoStore.blocks ∧
    (⟨2, .gpu, 0, 3, false, false⟩ : Block).tier = .gpu ∧
    (⟨2, .gpu, 0, 3, false, false⟩ : Block).pinned = false ∧
    (⟨2, .gpu, 0, 3, false, false⟩ : Block).refCount = 0 ∧
    ∀ b ∈ lruDemoStore.blocks, b.tier = .gpu → b.pinned = false →
      b.refCount = 0 →
      (⟨2, .gpu, 0, 3, false, false⟩ : Block).lastAccess < b.lastAccess ∨
        ((⟨2, .gpu, 0, 3, false, false⟩ : Block).lastAccess = b.lastAccess ∧
          (⟨2, .gpu, 0, 3, false, false⟩ : Block).blockId ≤ b.blockId) :=
  eviction_lru_deterministic lruDemoStore .gpu
    ⟨2, .gpu, 0, 3, false, false⟩ (by decide)

end KVCore

namespace KVCore

/-- Boolean test that the first token sequence is an initial segment of
the second. -/
def prefixOf : List Nat → List Nat → Bool
  | [], _ => true
  | _ :: _, [] => false
  | a :: as, b :: bs => a == b && prefixOf as bs

theorem prefixOf_append (p r : List Nat) : prefixOf p (p ++ r) = true := by
  induction p with
  | nil => rfl
  | cons a as ih => simp [prefixOf, ih]

theorem prefixOf_trans : ∀ a b c : List Nat, prefixOf a b = true →
    prefixOf b c = true → prefixOf a c = true
  | [], _, _, _, _ => rfl
  | _ :: _, [], _, h1, _ => by simp [prefixOf] at h1
  | _ :: _, _ :: _, [], _, h2 => by simp [prefixOf] at h2
  | a :: as, b :: bs, c :: cs, h1, h2 => by
      simp only [prefixOf, Bool.and_eq_true, beq_iff_eq] at *
      exact ⟨h1.1.trans h2.1, prefixOf_trans as bs cs h1.2 h2.2⟩

/-- Whether a block reference points at a block present in some tier. -/
def isPresentRef : BlockRef → Bool
  | .present _ _ => true
  | .absent => false

/-- Modelled from the spec: the resident run of a Cache Entry: the
contiguous block references starting at block 0 up to the first "not
present" marker, which truncates it (§4.2). -/
def residentRun (e : CacheEntry) : List BlockRef := e.run.takeWhile isPresentRef

/-- Modelled from the spec: the match length in tokens a Cache Entry can
serve: its resident run of blocks, each covering S token positions,
capped by the entry's own prefix length (§3, §4.2). -/
def candScore (S : Nat) (e : CacheEntry) : Nat :=
  min (S * (residentRun e).length) e.tokens.length

/-- The entries whose prefix is an initial segment of the query, paired
with their servable match length. -/
def candidates (d : CacheDir) (S : Nat) (q : List Nat) :
    List (Nat × CacheEntry) :=
  d.entries.filterMap
    (fun e => if prefixOf e.tokens q then some (candScore S e, e) else none)

/-- Preference between candidates: the strictly longer match wins. -/
def scoreBeats (a b : Nat × CacheEntry) : Bool := decide (b.1 < a.1)

/-- Modelled from the spec: `longestPrefixMatch(tokenSequence)`: the Cache
Entry for the longest prefix of the query with a fully-resident
contiguous block run starting at block 0, with its match length in
tokens; the first missing block truncates the match (§4.2). -/
def longestPrefixMatch (d : CacheDir) (S : Nat) (q : List Nat) :
    Option (Nat × CacheEntry) :=
  pickBest scoreBeats none (candidates d S q)

/-- The match length `longestPrefixMatch` reports, zero on a miss. -/
def matchLen (d : CacheDir) (S : Nat) (q : List Nat) : Nat :=
  match longestPrefixMatch d S q with
  | some p => p.1
  | none => 0

theorem scoreBeats_irrefl (a : Nat × CacheEntry) : scoreBeats a a = false := by
  simp [scoreBeats]

theorem scoreBeats_le_trans (x a v : Nat × CacheEntry)
    (h1 : scoreBeats x a = false) (h2 : scoreBeats a v = false) :
    scoreBeats x v = false := by
  simp only [scoreBeats, decide_eq_false_iff_not, not_lt] at *
  omega

theorem scoreBeats_swap (a b v : Nat × CacheEntry)
    (h1 : scoreBeats b a = true) (h2 : scoreBeats b v = false) :
    scoreBeats a v = false := by
  simp only [scoreBeats, decide_eq_false_iff_not, decide_eq_true_eq,
    not_lt] at *
  omega

theorem mem_candidates (d : CacheDir) (S : Nat) (q : List Nat)
    (L : Nat) (e : CacheEntry) :
    (L, e) ∈ candidates d S q ↔
      e ∈ d.entries ∧ prefixOf e.tokens q = true ∧ L = candScore S e := by
  unfold candidates
  rw [List.mem_filterMap]
  constructor
  · rintro ⟨e', he', hf⟩
    by_cases hp : prefixOf e'.tokens q = true
    · rw [if_pos hp, Option.some.injEq, Prod.mk.injEq] at hf
      obtain ⟨hL, he⟩ := hf
      subst he
      exact ⟨he', hp, hL.symm⟩
    · rw [if_neg hp] at hf
      exact absurd hf (Option.noConfusion)
  · rintro ⟨he, hp, hL⟩
    exact ⟨e, he, by rw [if_pos hp, hL]⟩

theorem lpm_some_spec (d : CacheDir) (S : Nat) (q : List Nat)
    (L : Nat) (e : CacheEntry)
    (h : longestPrefixMatch d S q = some (L, e)) :
    ((L, e) ∈ candidates d S q) ∧
      ∀ p ∈ candidates d S q, p.1 ≤ L := by
  unfold longestPrefixMatch at h
  rcases hfe : candidates d S q with _ | ⟨c0, cs⟩
  · rw [hfe] at h
    simp [pickBest] at h
  · rw [hfe] at h
    have h' : pickBest scoreBeats (some c0) cs = some (L, e) := h
    obtain ⟨hmem, hc0, hrest⟩ :=
      pickBest_spec scoreBeats scoreBeats_irrefl scoreBeats_le_trans
        scoreBeats_swap cs c0 (L, e) h'
    constructor
    · rcases hmem with rfl | hmem
      · exact List.mem_cons_self _ _
      · exact List.mem_cons_of_mem _ hmem
    · intro p hp
      have hnb : scoreBeats p (L, e) = false := by
        rcases List.mem_cons.mp hp with rfl | hp
        · exact hc0
        · exact hrest p hp
      simpa [scoreBeats, not_lt] using hnb

theorem lpm_of_candidate (d : CacheDir) (S : Nat) (q : List Nat)
    (p : Nat × CacheEntry) (hp : p ∈ candidates d S q) :
    ∃ L e, longestPrefixMatch d S q = some (L, e) := by
  unfold longestPrefixMatch
  rcases hfe : candidates d S q with _ | ⟨c0, cs⟩
  · rw [hfe] at hp
    exact absurd hp (List.not_mem_nil p)
  · obtain ⟨v, hv⟩ := pickBest_isSome scoreBeats cs c0
    exact ⟨v.1, v.2, hv⟩

/-- How eviction rewrites one block reference: the evicted block id is
replaced by the "not present" marker; other references are untouched
(§4.1, §4.2). -/
def invRef (bid : Nat) : BlockRef → BlockRef
  | .present b tr => if b = bid then .absent else .present b tr
  | .absent => .absent

/-- Modelled from the spec: `invalidate(blockID)` on one Cache Entry:
every reference to the evicted block becomes a "not present" marker; the
entry itself is kept (§4.1, §4.2). -/
def invEntry (bid : Nat) (e : CacheEntry) : CacheEntry :=
  ⟨e.tokens, e.run.map (invRef bid)⟩

/-- Modelled from the spec: `invalidate(blockID)` over the whole Cache
Directory (§4.2). -/
def invalidate (d : CacheDir) (bid : Nat) : CacheDir :=
  ⟨d.entries.map (invEntry bid)⟩

/-- Whether a block reference survives invalidation of `bid` as a present
reference. -/
def keepsRef (bid : Nat) : BlockRef → Bool
  | .present b _ => !(b == bid)
  | .absent => false

theorem takeWhile_invRef (bid : Nat) : ∀ l : List BlockRef,
    (l.map (invRef bid)).takeWhile isPresentRef = l.takeWhile (keepsRef bid)
  | [] => rfl
  | .absent :: rs => by
      simp [invRef, isPresentRef, keepsRef, List.takeWhile_cons]
  | .present b tr :: rs => by
      by_cases hb : b = bid
      · subst hb
        simp [invRef, isPresentRef, keepsRef, List.takeWhile_cons]
      · simp [invRef, isPresentRef, keepsRef, List.takeWhile_cons, hb,
          takeWhile_invRef bid rs]

theorem residentRun_invEntry (bid : Nat) (e : CacheEntry) :
    residentRun (invEntry bid e) = e.run.takeWhile (keepsRef bid) := by
  unfold residentRun invEntry
  exact takeWhile_invRef bid e.run

/-- C3: when `longestPrefixMatch` answers, the returned entry is one of
the directory's, its prefix is an initial segment of the query, the
returned match length is that entry's resident-run token count (blocks
counted contiguously from block 0, capped by the prefix length), and no
matching entry of the directory can serve a longer match; moreover after
a block is evicted an entry's resident run is exactly the run up to the
block before the first missing one, so a partially evicted entry still
matches up to the first missing block. -/
theorem lpm_longest_resident (d : CacheDir) (S : Nat) (q : List Nat)
    (L : Nat) (e : CacheEntry)
    (h : longestPrefixMatch d S q = some (L, e)) :
    e ∈ d.entries ∧ prefixOf e.tokens q = true ∧ L = candScore S e ∧
      (∀ e' ∈ d.entries, prefixOf e'.tokens q = true → candScore S e' ≤ L) ∧
      ∀ (bid : Nat) (e' : CacheEntry),
        residentRun (invEntry bid e') = e'.run.takeWhile (keepsRef bid) := by
  obtain ⟨hm, hmax⟩ := lpm_some_spec d S q L e h
  obtain ⟨he, hp, hL⟩ := (mem_candidates d S q L e).mp hm
  refine ⟨he, hp, hL, ?_, fun bid e' => residentRun_invEntry bid e'⟩
  intro e' he' hp'
  exact hmax (candScore S e', e') ((mem_candidates d S q _ e').mpr ⟨he', hp', rfl⟩)

/-- The directory for the C3 witness: one entry for four tokens in two
blocks whose second block was evicted, and one fully resident two-token
entry. -/
def lpmDemoDir : CacheDir :=
  ⟨[⟨[1, 2, 3, 4], [.present 0 .gpu, .absent]⟩,
    ⟨[1, 2], [.present 1 .host]⟩]⟩

/-- Witness for C3: with block size 2 and query [1,2,3,4,5], the partially
evicted entry still matches its first resident block (2 tokens) and is
returned. -/
theorem lpm_longest_resident_witness :
    (⟨[1, 2, 3, 4], [.present 0 .gpu, .absent]⟩ : CacheEntry) ∈
      lpmDemoDir.entries ∧
    prefixOf [1, 2, 3, 4] [1, 2, 3, 4, 5] = true ∧
    2 = candScore 2 ⟨[1, 2, 3, 4], [.present 0 .gpu, .absent]⟩ ∧
    (∀ e' ∈ lpmDemoDir.entries,
      prefixOf e'.tokens [1, 2, 3, 4, 5] = true → candScore 2 e' ≤ 2) ∧
    ∀ (bid : Nat) (e' : CacheEntry),
      residentRun (invEntry bid e') = e'.run.takeWhile (keepsRef bid) :=
  lpm_longest_resident lpmDemoDir 2 [1, 2, 3, 4, 5] 2
    ⟨[1, 2, 3, 4], [.present 0 .gpu, .absent]⟩ (by decide)

/-- C6: for inserted fingerprints F1 and F2 where F2 extends F1 by one
block of S tokens, the longest-prefix match on F2's token sequence is at
least as long as the one on F1's token sequence. -/
theorem matchLen_monotone (d : CacheDir) (S : Nat) (e1 e2 : CacheEntry)
    (ext : List Nat) (h1 : e1 ∈ d.entries) (h2 : e2 ∈ d.entries)
    (hext : e2.tokens = e1.tokens ++ ext) (hS : ext.length = S) :
    matchLen d S e1.tokens ≤ matchLen d S e2.tokens := by
  unfold matchLen
  rcases hq1 : longestPrefixMatch d S e1.tokens with _ | ⟨L1, b1⟩
  · exact Nat.zero_le _
  · obtain ⟨hm1, _⟩ := lpm_some_spec d S e1.tokens L1 b1 hq1
    obtain ⟨hb1, hp1, hL1⟩ := (mem_candidates d S e1.tokens L1 b1).mp hm1
    have hp2 : prefixOf b1.tokens e2.tokens = true := by
      rw [hext]
      exact prefixOf_trans b1.tokens e1.tokens (e1.tokens ++ ext) hp1
        (prefixOf_append e1.tokens ext)
    have hc2 : (candScore S b1, b1) ∈ candidates d S e2.tokens :=
      (mem_candidates d S e2.tokens _ b1).mpr ⟨hb1, hp2, rfl⟩
    obtain ⟨L2, b2, hq2⟩ :=
      lpm_of_candidate d S e2.tokens (candScore S b1, b1) hc2
    rw [hq2]
    obtain ⟨_, hmax2⟩ := lpm_some_spec d S e2.tokens L2 b2 hq2
    have := hmax2 (candScore S b1, b1) hc2
    simpa [hL1] using this

/-- Witness for C6 on the two-entry demo directory: the two-token entry
extended by one block of two tokens to the four-token entry. -/
theorem matchLen_monotone_witness :
    matchLen lpmDemoDir 2 ([1, 2] : List Nat) ≤
      matchLen lpmDemoDir 2 ([1, 2, 3, 4] : List Nat) :=
  matchLen_monotone lpmDemoDir 2 ⟨[1, 2], [.present 1 .host]⟩
    ⟨[1, 2, 3, 4], [.present 0 .gpu, .absent]⟩ [3, 4]
    (by decide) (by decide) (by decide) (by decide)

end KVCore

namespace KVCore

/-- Modelled from the spec: a serving Instance as the Request Router sees
it: its id, the Cache Entries resident on it, its free GPU block capacity
and its current queue depth (§3, §4.4). -/
structure InstanceState where
  iid : Nat
  dir : CacheDir
  freeGpu : Nat
  queueDepth : Nat
deriving DecidableEq

/-- The longest-prefix match length an instance's own resident cache can
serve for a query. -/
def instMatch (S : Nat) (q : List Nat) (inst : InstanceState) : Nat :=
  matchLen inst.dir S q

/-- Modelled from the spec: the Router's preference between instances:
longer prefix match first; on equal match length the most free GPU
capacity; then the lowest queue depth (§4.4). -/
def routeBeats (S : Nat) (q : List Nat) (a b : InstanceState) : Bool :=
  decide (instMatch S q b < instMatch S q a) ||
    (instMatch S q a == instMatch S q b &&
      (decide (b.freeGpu < a.freeGpu) ||
        (a.freeGpu == b.freeGpu && decide (a.queueDepth < b.queueDepth))))

/-- Modelled from the spec: `route(tokenSequence)`: the instance chosen
for a request, maximal under the Router's preference (§4.4). -/
def route (S : Nat) (q : List Nat) (insts : List InstanceState) :
    Option InstanceState :=
  pickBest (routeBeats S q) none insts

theorem routeBeats_irrefl (S : Nat) (q : List Nat) (a : InstanceState) :
    routeBeats S q a a = false := by
  simp [routeBeats]

theorem routeBeats_le_trans (S : Nat) (q : List Nat) (x a v : InstanceState)
    (h1 : routeBeats S q x a = false) (h2 : routeBeats S q a v = false) :
    routeBeats S q x v = false := by
  simp only [routeBeats, Bool.or_eq_false_iff, decide_eq_false_iff_not,
    Bool.and_eq_false_iff, beq_eq_false_iff_ne, ne_eq, beq_iff_eq,
    not_lt] at *
  omega

theorem routeBeats_swap (S : Nat) (q : List Nat) (a b v : InstanceState)
    (h1 : routeBeats S q b a = true) (h2 : routeBeats S q b v = false) :
    routeBeats S q a v = false := by
  simp only [routeBeats, Bool.or_eq_false_iff, Bool.or_eq_true,
    decide_eq_false_iff_not, decide_eq_true_eq, Bool.and_eq_false_iff,
    Bool.and_eq_true, beq_eq_false_iff_ne, ne_eq, beq_iff_eq, not_lt] at *
  omega

/-- C7: the routed instance is one of the registered instances with the
maximal longest-prefix match length; among instances tying on match
length it has the most free GPU capacity, remaining ties resolved by the
lowest queue depth; and when no instance has any cached prefix (all match
lengths zero) the chosen instance is the least loaded one (most free GPU
capacity, then lowest queue depth). -/
theorem route_affinity_tiebreak (S : Nat) (q : List Nat)
    (insts : List InstanceState) (c : InstanceState)
    (h : route S q insts = some c) :
    c ∈ insts ∧
    (∀ i ∈ insts, instMatch S q i ≤ instMatch S q c) ∧
    (∀ i ∈ insts, instMatch S q i = instMatch S q c →
      i.freeGpu ≤ c.freeGpu) ∧
    (∀ i ∈ insts, instMatch S q i = instMatch S q c →
      i.freeGpu = c.freeGpu → c.queueDepth ≤ i.queueDepth) ∧
    ((∀ i ∈ insts, instMatch S q i = 0) →
      ∀ i ∈ insts, i.freeGpu ≤ c.freeGpu ∧
        (i.freeGpu = c.freeGpu → c.queueDepth ≤ i.queueDepth)) := by
  unfold route at h
  rcases hfe : insts with _ | ⟨i0, is⟩
  · rw [hfe] at h
    simp [pickBest] at h
  · rw [hfe] at h
    have h' : pickBest (routeBeats S q) (some i0) is = some c := h
    obtain ⟨hmem, hi0, hrest⟩ :=
      pickBest_spec (routeBeats S q) (routeBeats_irrefl S q)
        (routeBeats_le_trans S q) (routeBeats_swap S q) is i0 c h'
    have hcl : c ∈ i0 :: is := by
      rcases hmem with rfl | hmem
      · exact List.mem_cons_self _ _
      · exact List.mem_cons_of_mem _ hmem
    have hall : ∀ i ∈ i0 :: is, routeBeats S q i c = false := by
      intro i hi
      rcases List.mem_cons.mp hi with rfl | hi
      · exact hi0
      · exact hrest i hi
    have hunfold : ∀ i ∈ i0 :: is,
        instMatch S q i ≤ instMatch S q c ∧
        (instMatch S q i = instMatch S q c → i.freeGpu ≤ c.freeGpu) ∧
        (instMatch S q i = instMatch S q c → i.freeGpu = c.freeGpu →
          c.queueDepth ≤ i.queueDepth) := by
      intro i hi
      have hb := hall i hi
      simp only [routeBeats, Bool.or_eq_false_iff, decide_eq_false_iff_not,
        Bool.and_eq_false_iff, beq_eq_false_iff_ne, ne_eq, beq_iff_eq,
        not_lt] at hb
      refine ⟨?_, ?_, ?_⟩ <;> omega
    refine ⟨hcl, fun i hi => (hunfold i hi).1, fun i hi => (hunfold i hi).2.1,
      fun i hi => (hunfold i hi).2.2, ?_⟩
    intro hzero i hi
    have hiz := hzero i hi
    have hcz := hzero c hcl
    refine ⟨(hunfold i hi).2.1 ?_, fun hg => (hunfold i hi).2.2 ?_ hg⟩ <;>
      omega

/-- The instance list for the C7 witness: two instances with no resident
cache; instance 1 has more free GPU capacity. -/
def routeDemoInsts : List InstanceState :=
  [⟨0, ⟨[]⟩, 4, 5⟩, ⟨1, ⟨[]⟩, 7, 9⟩]

/-- Witness for C7: with no cached prefix anywhere, the router picks
instance 1, the one with the most free GPU capacity. -/
theorem route_affinity_tiebreak_witness :
    (⟨1, ⟨[]⟩, 7, 9⟩ : InstanceState) ∈ routeDemoInsts ∧
    (∀ i ∈ routeDemoInsts,
      instMatch 2 [1, 2] i ≤ instMatch 2 [1, 2] ⟨1, ⟨[]⟩, 7, 9⟩) ∧
    (∀ i ∈ routeDemoInsts,
      instMatch 2 [1, 2] i = instMatch 2 [1, 2] ⟨1, ⟨[]⟩, 7, 9⟩ →
      i.freeGpu ≤ (⟨1, ⟨[]⟩, 7, 9⟩ : InstanceState).freeGpu) ∧
    (∀ i ∈ routeDemoInsts,
      instMatch 2 [1, 2] i = instMatch 2 [1, 2] ⟨1, ⟨[]⟩, 7, 9⟩ →
      i.freeGpu = (⟨1, ⟨[]⟩, 7, 9⟩ : InstanceState).freeGpu →
      (⟨1, ⟨[]⟩, 7, 9⟩ : InstanceState).queueDepth ≤ i.queueDepth) ∧
    ((∀ i ∈ routeDemoInsts, instMatch 2 [1, 2] i = 0) →
      ∀ i ∈ routeDemoInsts,
        i.freeGpu ≤ (⟨1, ⟨[]⟩, 7, 9⟩ : InstanceState).freeGpu ∧
        (i.freeGpu = (⟨1, ⟨[]⟩, 7, 9⟩ : InstanceState).freeGpu →
          (⟨1, ⟨[]⟩, 7, 9⟩ : InstanceState).queueDepth ≤ i.queueDepth)) :=
  route_affinity_tiebreak 2 [1, 2] routeDemoInsts ⟨1, ⟨[]⟩, 7, 9⟩ (by decide)

end KVCore

namespace KVCore

/-- Modelled from the spec: a tier's capacity in blocks (§4.1, §6). -/
def BlockStore.cap (s : BlockStore) : Tier → Nat
  | .gpu => s.gpuCap
  | .host => s.hostCap
  | .remote => s.remoteCap

/-- The blocks currently resident in one tier. -/
def tierBlocks (s : BlockStore) (t : Tier) : List Block :=
  s.blocks.filter (fun b => b.tier == t)

/-- The unallocated block slots of a tier. -/
def freeCount (s : BlockStore) (t : Tier) : Nat :=
  s.cap t - (tierBlocks s t).length

/-- How many of a tier's blocks are evictable (unpinned, refcount 0). -/
def evictableCount (s : BlockStore) (t : Tier) : Nat :=
  ((tierBlocks s t).filter (fun b => b.evictable)).length

/-- Modelled from the spec: one eviction within a tier: the LRU victim is
removed from the Block Store and the Cache Directory is told to
invalidate its references (§4.1). Does nothing when no block is
evictable. -/
def evictOne (sys : SysState) (t : Tier) : SysState :=
  match selectVictim sys.store t with
  | none => sys
  | some v =>
      { store := { sys.store with blocks := sys.store.blocks.erase v },
        dir := invalidate sys.dir v.blockId }

/-- Iterated eviction, as `allocate` uses it to make room (§4.1). -/
def evictMany (sys : SysState) (t : Tier) : Nat → SysState
  | 0 => sys
  | n + 1 => evictMany (evictOne sys t) t n

/-- The ids of the next `count` fresh blocks. -/
def newIds (s : BlockStore) (count : Nat) : List Nat :=
  (List.range count).map (fun i => s.nextId + i)

/-- Appending `count` fresh blocks (refcount 1, unpinned, clean) to a
tier, returning the new store and the ordered fresh handles. -/
def addNew (s : BlockStore) (t : Tier) (count : Nat) : BlockStore × List Nat :=
  ({ s with
      blocks := s.blocks ++
        (newIds s count).map (fun i => ⟨i, t, 1, s.clock, false, false⟩),
      nextId := s.nextId + count,
      clock := s.clock + 1 },
   newIds s count)

/-- Modelled from the spec: `allocate(tier, count)`: an ordered sequence of
`count` new Block handles, evicting refcount-0 blocks as needed, or
OutOfCapacity when the free blocks plus the evictable ones cannot cover
the request — in which case nothing is allocated (§4.1, §7). -/
def allocate (sys : SysState) (t : Tier) (count : Nat) :
    Except CacheError (SysState × List Nat) :=
  if count ≤ freeCount sys.store t + evictableCount sys.store t then
    .ok ({ store :=
             (addNew (evictMany sys t (count - freeCount sys.store t)).store
               t count).1,
           dir := (evictMany sys t (count - freeCount sys.store t)).dir },
         (addNew (evictMany sys t (count - freeCount sys.store t)).store
           t count).2)
  else .error .outOfCapacity

theorem evictOne_nextId (sys : SysState) (t : Tier) :
    (evictOne sys t).store.nextId = sys.store.nextId := by
  unfold evictOne
  rcases h : selectVictim sys.store t with _ | v <;> rfl

theorem evictMany_nextId (sys : SysState) (t : Tier) :
    ∀ n, (evictMany sys t n).store.nextId = sys.store.nextId
  | 0 => rfl
  | n + 1 => by
      rw [show evictMany sys t (n + 1) = evictMany (evictOne sys t) t n
          from rfl,
        evictMany_nextId (evictOne sys t) t n, evictOne_nextId]

/-- C2: `allocate(tier, count)` fails with OutOfCapacity exactly when the
tier's free slots plus its evictable refcount-0 blocks cannot cover the
request — in particular whenever more than the tier's whole capacity is
requested and no block is evictable (all pinned or referenced) — and the
error branch returns no blocks and no changed state (no partial
allocation); otherwise it returns an ordered sequence of exactly `count`
block handles, all of them new (at or above the store's fresh-id
mark). -/
theorem allocate_exact_or_oom (sys : SysState) (t : Tier) (count : Nat) :
    (freeCount sys.store t + evictableCount sys.store t < count →
      allocate sys t count = .error .outOfCapacity) ∧
    (count ≤ freeCount sys.store t + evictableCount sys.store t →
      ∃ sys' ids, allocate sys t count = .ok (sys', ids) ∧
        ids.length = count ∧ ∀ i ∈ ids, sys.store.nextId ≤ i) ∧
    (evictableCount sys.store t = 0 → sys.store.cap t < count →
      allocate sys t count = .error .outOfCapacity) := by
  have hfree : freeCount sys.store t ≤ sys.store.cap t := Nat.sub_le _ _
  refine ⟨?_, ?_, ?_⟩
  · intro hlt
    unfold allocate
    rw [if_neg (by omega)]
  · intro hle
    unfold allocate
    rw [if_pos hle]
    refine ⟨_, _, rfl, ?_, ?_⟩
    · simp [addNew, newIds]
    · intro i hi
      have hnid := evictMany_nextId sys t (count - freeCount sys.store t)
      simp only [addNew, newIds, List.mem_map, List.mem_range] at hi
      obtain ⟨j, _, rfl⟩ := hi
      omega
  · intro h0 hcap
    unfold allocate
    rw [if_neg (by omega)]

/-- Modelled from the spec: eviction of one named block id: if a block
with that id exists and is evictable it is removed and the Cache
Directory invalidates its references; an absent (already evicted) id is
acknowledged as a no-op, never an error (§4.1, §8). -/
def evictById (sys : SysState) (bid : Nat) : Except CacheError SysState :=
  match sys.store.blocks.find? (fun b => b.blockId == bid) with
  | none => .ok sys
  | some b =>
      if b.evictable then
        .ok { store := { sys.store with
                blocks := sys.store.blocks.filter
                  (fun b' => !(b'.blockId == bid)) },
              dir := invalidate sys.dir bid }
      else .ok sys

/-- C9: eviction by block id never raises an error, evicting an id with no
block present leaves the state untouched, and a second eviction of the
same id returns the state of the first unchanged (idempotence over both
the Block Store and the Cache Directory). -/
theorem evictById_idempotent (sys : SysState) (bid : Nat) :
    (∃ s', evictById sys bid = .ok s') ∧
    (sys.store.blocks.find? (fun b => b.blockId == bid) = none →
      evictById sys bid = .ok sys) ∧
    ∀ s', evictById sys bid = .ok s' → evictById s' bid = .ok s' := by
  rcases hf : sys.store.blocks.find? (fun b => b.blockId == bid) with _ | b
  · have he : evictById sys bid = .ok sys := by
      unfold evictById
      rw [hf]
    refine ⟨⟨sys, he⟩, fun _ => he, ?_⟩
    intro s' hs'
    rw [he] at hs'
    injection hs' with h1
    rw [← h1]
    exact he
  · by_cases hev : b.evictable = true
    · have he : evictById sys bid = .ok
          { store := { sys.store with
              blocks := sys.store.blocks.filter
                (fun b' => !(b'.blockId == bid)) },
            dir := invalidate sys.dir bid } := by
        unfold evictById
        rw [hf]
        simp [hev]
      refine ⟨⟨_, he⟩, ?_, ?_⟩
      · intro hnone
        rw [hf] at hnone
        exact absurd hnone (by simp)
      · intro s' hs'
        rw [he] at hs'
        injection hs' with h1
        rw [← h1]
        have hnone : (sys.store.blocks.filter
            (fun b' => !(b'.blockId == bid))).find?
            (fun b' => b'.blockId == bid) = none := by
          rw [List.find?_eq_none]
          intro b' hb'
          have h2 := (List.mem_filter.mp hb').2
          simp only [Bool.not_eq_eq_eq_not, Bool.not_true] at h2
          simp [h2]
        unfold evictById
        rw [hnone]
    · have he : evictById sys bid = .ok sys := by
        unfold evictById
        rw [hf]
        simp [hev]
      refine ⟨⟨sys, he⟩, ?_, ?_⟩
      · intro hnone
        rw [hf] at hnone
        exact absurd hnone (by simp)
      · intro s' hs'
        rw [he] at hs'
        injection hs' with h1
        rw [← h1]
        exact he

end KVCore

namespace KVCore

/-- The block ids a run of references names, markers skipped. -/
def bidsOf : List BlockRef → List Nat
  | [] => []
  | .present b _ :: rs => b :: bidsOf rs
  | .absent :: rs => bidsOf rs

/-- The block ids of a Cache Entry's resident run. -/
def residentBids (e : CacheEntry) : List Nat := bidsOf (residentRun e)

/-- Whether a Cache Entry's resident run points at a block id. -/
def entryOwns (e : CacheEntry) (bid : Nat) : Bool :=
  decide (bid ∈ residentBids e)

/-- How many Cache Entries' resident runs point at a block id. -/
def owners (es : List CacheEntry) (bid : Nat) : Nat :=
  es.countP (fun e => entryOwns e bid)

/-- Modelled from the spec: the ownership invariant of §3 and §8 over the
Block Store and Cache Directory: block ids are unique, a block with
positive reference count is reachable from exactly one Cache Entry's
resident run, a block any entry points to has reference count at least
one, resident references dangle nowhere, and live ids sit below the
fresh-id mark. -/
def InvParts (bs : List Block) (es : List CacheEntry) (nid : Nat) : Prop :=
  (bs.map Block.blockId).Nodup ∧
  (∀ b ∈ bs, 0 < b.refCount → owners es b.blockId = 1) ∧
  (∀ b ∈ bs, 0 < owners es b.blockId → 1 ≤ b.refCount) ∧
  (∀ e ∈ es, ∀ bid ∈ residentBids e, ∃ b ∈ bs, b.blockId = bid) ∧
  (∀ b ∈ bs, b.blockId < nid)

/-- The ownership invariant of a whole system state. -/
def Inv (sys : SysState) : Prop :=
  InvParts sys.store.blocks sys.dir.entries sys.store.nextId

instance invDecidable (sys : SysState) : Decidable (Inv sys) := by
  unfold Inv InvParts
  infer_instance

/-- Modelled from the spec: `pin`/`unpin` of one block id (§4.1). -/
def setPinned (sys : SysState) (bid : Nat) (p : Bool) : SysState :=
  { sys with store := { sys.store with
      blocks := sys.store.blocks.map
        (fun b => if b.blockId == bid then { b with pinned := p } else b) } }

/-- Modelled from the spec: a cache hit touches a block's last-access
stamp with the store's logical clock (§3, §4.1). -/
def touchBlock (sys : SysState) (bid : Nat) : SysState :=
  { sys with store := { sys.store with
      blocks := sys.store.blocks.map
        (fun b => if b.blockId == bid then
            { b with lastAccess := sys.store.clock } else b),
      clock := sys.store.clock + 1 } }

/-- Whether some Cache Entry with the given prefix owns the block id. -/
def ownedByMatching (es : List CacheEntry) (toks : List Nat) (bid : Nat) :
    Bool :=
  es.any (fun e => entryOwns e bid && (e.tokens == toks))

/-- Modelled from the spec: destroying a Cache Entry reclaims the entry
and releases its blocks' references together (§3); it is deferred (a
no-op) while any of its blocks is still referenced beyond the entry's own
reference. -/
def destroyEntry (sys : SysState) (toks : List Nat) : SysState :=
  if (sys.dir.entries.filter (fun e => e.tokens == toks)).all
      (fun e => sys.store.blocks.all
        (fun b => !(entryOwns e b.blockId) || decide (b.refCount ≤ 1))) then
    { store := { sys.store with
        blocks := sys.store.blocks.map
          (fun b => if ownedByMatching sys.dir.entries toks b.blockId then
              { b with refCount := b.refCount - 1 } else b) },
      dir := ⟨sys.dir.entries.filter (fun e => !(e.tokens == toks))⟩ }
  else sys

/-- Modelled from the spec: registering a new Cache Entry for a freshly
computed prefix: its blocks are allocated and the entry referencing them
is inserted as one atomic step; a fingerprint already present is a
Conflict and changes nothing (§4.2, §7). -/
def insertEntry (sys : SysState) (toks : List Nat) (count : Nat) (t : Tier) :
    SysState :=
  if sys.dir.entries.any (fun e => e.tokens == toks) then sys
  else
    match allocate sys t count with
    | .ok (sys', ids) =>
        { store := sys'.store,
          dir := ⟨⟨toks, ids.map (fun i => .present i t)⟩ ::
            sys'.dir.entries⟩ }
    | .error _ => sys

/-- Modelled from the spec: the quiescent-point operations of the shared
state: entry insertion, entry destruction, LRU eviction, pinning,
unpinning, and access touching (§4.1-§4.2). -/
inductive Op
  | insert (toks : List Nat) (count : Nat) (t : Tier)
  | destroy (toks : List Nat)
  | evictLRU (t : Tier)
  | pin (bid : Nat)
  | unpin (bid : Nat)
  | touch (bid : Nat)

/-- One quiescent-point step of the shared state. -/
def applyOp (sys : SysState) : Op → SysState
  | .insert toks count t => insertEntry sys toks count t
  | .destroy toks => destroyEntry sys toks
  | .evictLRU t => evictOne sys t
  | .pin bid => setPinned sys bid true
  | .unpin bid => setPinned sys bid false
  | .touch bid => touchBlock sys bid

/-- The empty system a deployment starts from, with the configured
per-tier capacities (§6). -/
def initSys (g hc r : Nat) : SysState := ⟨⟨g, hc, r, [], 0, 0⟩, ⟨[]⟩⟩

theorem countP_congr_mem {α : Type} (l : List α) (p q : α → Bool)
    (h : ∀ a ∈ l, p a = q a) : l.countP p = l.countP q := by
  induction l with
  | nil => rfl
  | cons a l ih =>
      rw [List.countP_cons, List.countP_cons, h a (List.mem_cons_self a l),
        ih (fun a ha => h a (List.mem_cons_of_mem _ ha))]

theorem countP_map_eq {α β : Type} (l : List α) (f : α → β) (p : β → Bool) :
    (l.map f).countP p = l.countP (fun a => p (f a)) := by
  induction l with
  | nil => rfl
  | cons a l ih => simp [List.countP_cons, ih]

theorem countP_split {α : Type} (l : List α) (p q : α → Bool) :
    l.countP p =
      l.countP (fun a => p a && q a) + l.countP (fun a => p a && !q a) := by
  induction l with
  | nil => rfl
  | cons a l ih =>
      rw [List.countP_cons, List.countP_cons, List.countP_cons]
      cases hp : p a <;> cases hq : q a <;> simp [hp, hq, ih] <;> omega

theorem countP_filter_eq {α : Type} (l : List α) (p q : α → Bool) :
    (l.filter q).countP p = l.countP (fun a => p a && q a) := by
  induction l with
  | nil => rfl
  | cons a l ih =>
      rw [List.filter_cons]
      cases hq : q a <;> simp [List.countP_cons, hq, ih]

theorem map_eq_of_eq {α β : Type} (l : List α) (f g : α → β)
    (h : ∀ a ∈ l, f a = g a) : l.map f = l.map g := by
  induction l with
  | nil => rfl
  | cons a l ih =>
      rw [List.map_cons, List.map_cons, h a (List.mem_cons_self a l),
        ih (fun a ha => h a (List.mem_cons_of_mem _ ha))]

theorem owners_eq_zero_iff (es : List CacheEntry) (bid : Nat) :
    owners es bid = 0 ↔ ∀ e ∈ es, entryOwns e bid = false := by
  unfold owners
  rw [List.countP_eq_zero]
  simp

theorem takeWhile_keeps_of_not_mem (bid : Nat) : ∀ l : List BlockRef,
    bid ∉ bidsOf (l.takeWhile isPresentRef) →
    l.takeWhile (keepsRef bid) = l.takeWhile isPresentRef
  | [], _ => rfl
  | .absent :: rs, _ => by
      simp [List.takeWhile_cons, keepsRef, isPresentRef]
  | .present b tr :: rs, h => by
      rw [List.takeWhile_cons, List.takeWhile_cons] at *
      simp only [isPresentRef, if_true] at h
      have hb : ¬ bid = b ∧ bid ∉ bidsOf (rs.takeWhile isPresentRef) := by
        simpa [bidsOf] using h
      have hbb : (b == bid) = false := by
        simp only [beq_eq_false_iff_ne, ne_eq]
        exact fun hc => hb.1 hc.symm
      simp [keepsRef, isPresentRef, hbb,
        takeWhile_keeps_of_not_mem bid rs hb.2]

theorem residentRun_invEntry_of_not_owns (bid : Nat) (e : CacheEntry)
    (h : entryOwns e bid = false) :
    residentRun (invEntry bid e) = residentRun e := by
  rw [residentRun_invEntry]
  apply takeWhile_keeps_of_not_mem
  have := h
  unfold entryOwns residentBids residentRun at this
  simpa using this

theorem entryOwns_invEntry (bid x : Nat) (e : CacheEntry)
    (h : entryOwns e bid = false) :
    entryOwns (invEntry bid e) x = entryOwns e x := by
  unfold entryOwns residentBids
  rw [residentRun_invEntry_of_not_owns bid e h]

theorem owners_invalidate (es : List CacheEntry) (bid x : Nat)
    (h : owners es bid = 0) :
    owners (es.map (invEntry bid)) x = owners es x := by
  unfold owners
  rw [countP_map_eq]
  exact countP_congr_mem es _ _
    (fun e he => entryOwns_invEntry bid x e
      ((owners_eq_zero_iff es bid).mp h e he))

end KVCore

namespace KVCore

theorem invParts_map (bs : List Block) (es : List CacheEntry) (nid : Nat)
    (f : Block → Block)
    (hid : ∀ b, (f b).blockId = b.blockId)
    (hrc : ∀ b, (f b).refCount = b.refCount)
    (h : InvParts bs es nid) : InvParts (bs.map f) es nid := by
  obtain ⟨hnd, h1, h2, h3, h4⟩ := h
  refine ⟨?_, ?_, ?_, ?_, ?_⟩
  · rw [List.map_map]
    have he : (Block.blockId ∘ f) = Block.blockId := funext hid
    rw [he]
    exact hnd
  · intro b' hb' hpos
    obtain ⟨b, hb, rfl⟩ := List.mem_map.mp hb'
    rw [hid b]
    rw [hrc b] at hpos
    exact h1 b hb hpos
  · intro b' hb' hpos
    obtain ⟨b, hb, rfl⟩ := List.mem_map.mp hb'
    rw [hrc b]
    rw [hid b] at hpos
    exact h2 b hb hpos
  · intro e he bid hbid
    obtain ⟨b, hb, hbb⟩ := h3 e he bid hbid
    exact ⟨f b, List.mem_map.mpr ⟨b, hb, rfl⟩, by rw [hid b, hbb]⟩
  · intro b' hb'
    obtain ⟨b, hb, rfl⟩ := List.mem_map.mp hb'
    rw [hid b]
    exact h4 b hb

theorem pickBest_mem {α : Type} (beats : α → α → Bool) :
    ∀ (xs : List α) (a v : α), pickBest beats (some a) xs = some v →
      v = a ∨ v ∈ xs
  | [], _, _, h => by
      simp only [pickBest, Option.some.injEq] at h
      exact Or.inl h.symm
  | x :: xs, a, v, h => by
      simp only [pickBest] at h
      by_cases hb : beats x a = true
      · rw [if_pos hb] at h
        rcases pickBest_mem beats xs x v h with rfl | hm
        · exact Or.inr (List.mem_cons_self _ _)
        · exact Or.inr (List.mem_cons_of_mem _ hm)
      · rw [if_neg hb] at h
        rcases pickBest_mem beats xs a v h with rfl | hm
        · exact Or.inl rfl
        · exact Or.inr (List.mem_cons_of_mem _ hm)

theorem selectVictim_props (s : BlockStore) (t : Tier) (v : Block)
    (h : selectVictim s t = some v) : v ∈ s.blocks ∧ v.refCount = 0 := by
  unfold selectVictim at h
  rcases hfe : s.blocks.filter (fun b => b.tier == t && b.evictable) with
    _ | ⟨b0, bs⟩
  · rw [hfe] at h
    simp [pickBest] at h
  · rw [hfe] at h
    have h' : pickBest betterVictim (some b0) bs = some v := h
    have hvl : v ∈ b0 :: bs := by
      rcases pickBest_mem betterVictim bs b0 v h' with rfl | hm
      · exact List.mem_cons_self _ _
      · exact List.mem_cons_of_mem _ hm
    rw [← hfe] at hvl
    have := List.mem_filter.mp hvl
    refine ⟨this.1, ?_⟩
    have h2 := this.2
    simp only [Block.evictable, Bool.and_eq_true, beq_iff_eq] at h2
    exact h2.2.2

theorem invParts_evict (bs : List Block) (es : List CacheEntry) (nid : Nat)
    (v : Block) (hv : v ∈ bs) (hvr : v.refCount = 0)
    (h : InvParts bs es nid) :
    InvParts (bs.erase v) (es.map (invEntry v.blockId)) nid := by
  obtain ⟨hnd, h1, h2, h3, h4⟩ := h
  have hz : owners es v.blockId = 0 := by
    by_contra hc
    have := h2 v hv (Nat.pos_of_ne_zero hc)
    omega
  have hall : ∀ e ∈ es, entryOwns e v.blockId = false :=
    (owners_eq_zero_iff es v.blockId).mp hz
  have hRes : ∀ e ∈ es, residentBids (invEntry v.blockId e) = residentBids e := by
    intro e he
    unfold residentBids
    rw [residentRun_invEntry_of_not_owns v.blockId e (hall e he)]
  have hOwn : ∀ x, owners (es.map (invEntry v.blockId)) x = owners es x :=
    fun x => owners_invalidate es v.blockId x hz
  have hsub : List.Sublist (bs.erase v) bs := List.erase_sublist v bs
  refine ⟨?_, ?_, ?_, ?_, ?_⟩
  · exact List.Nodup.sublist (hsub.map Block.blockId) hnd
  · intro b hb hpos
    rw [hOwn b.blockId]
    exact h1 b (hsub.subset hb) hpos
  · intro b hb hpos
    rw [hOwn b.blockId] at hpos
    exact h2 b (hsub.subset hb) hpos
  · intro e' he' bid hbid
    obtain ⟨e, he, rfl⟩ := List.mem_map.mp he'
    rw [hRes e he] at hbid
    obtain ⟨b, hb, hbb⟩ := h3 e he bid hbid
    have hbv : b ≠ v := by
      intro hc
      subst hc
      have : entryOwns e b.blockId = true := by
        unfold entryOwns
        rw [hbb]
        exact decide_eq_true hbid
      rw [hall e he] at this
      exact absurd this (by simp)
    exact ⟨b, (List.mem_erase_of_ne hbv).mpr hb, hbb⟩
  · intro b hb
    exact h4 b (hsub.subset hb)

theorem inv_evictOne (sys : SysState) (t : Tier) (h : Inv sys) :
    Inv (evictOne sys t) := by
  unfold Inv at *
  unfold evictOne
  rcases hv : selectVictim sys.store t with _ | v
  · exact h
  · obtain ⟨hvm, hvr⟩ := selectVictim_props sys.store t v hv
    exact invParts_evict _ _ _ v hvm hvr h

theorem inv_evictMany (t : Tier) : ∀ (n : Nat) (sys : SysState),
    Inv sys → Inv (evictMany sys t n)
  | 0, _, h => h
  | n + 1, sys, h => inv_evictMany t n (evictOne sys t) (inv_evictOne sys t h)

end KVCore

namespace KVCore

theorem bidsOf_takeWhile_fresh (t : Tier) : ∀ ids : List Nat,
    bidsOf ((ids.map (fun i => BlockRef.present i t)).takeWhile
      isPresentRef) = ids
  | [] => rfl
  | i :: ids => by
      simp [List.takeWhile_cons, isPresentRef, bidsOf,
        bidsOf_takeWhile_fresh t ids]

theorem residentBids_fresh (toks : List Nat) (t : Tier) (ids : List Nat) :
    residentBids ⟨toks, ids.map (fun i => BlockRef.present i t)⟩ = ids := by
  unfold residentBids residentRun
  exact bidsOf_takeWhile_fresh t ids

theorem entryOwns_fresh (toks : List Nat) (t : Tier) (ids : List Nat)
    (x : Nat) :
    entryOwns ⟨toks, ids.map (fun i => BlockRef.present i t)⟩ x =
      decide (x ∈ ids) := by
  unfold entryOwns
  rw [residentBids_fresh]

theorem invParts_insert (bs : List Block) (es : List CacheEntry)
    (nid nid' clk : Nat) (toks : List Nat) (t : Tier) (ids : List Nat)
    (hnd : ids.Nodup) (hlo : ∀ i ∈ ids, nid ≤ i) (hhi : ∀ i ∈ ids, i < nid')
    (hle : nid ≤ nid') (h : InvParts bs es nid) :
    InvParts
      (bs ++ ids.map (fun i => (⟨i, t, 1, clk, false, false⟩ : Block)))
      (⟨toks, ids.map (fun i => BlockRef.present i t)⟩ :: es) nid' := by
  obtain ⟨hndb, h1, h2, h3, h4⟩ := h
  have hesFresh : ∀ e ∈ es, ∀ i ∈ ids, entryOwns e i = false := by
    intro e he i hi
    unfold entryOwns
    rw [decide_eq_false_iff_not]
    intro hmem
    obtain ⟨b, hb, hbi⟩ := h3 e he i hmem
    have hb4 := h4 b hb
    have hge := hlo i hi
    omega
  have hOwnCons : ∀ x,
      owners (⟨toks, ids.map (fun i => BlockRef.present i t)⟩ :: es) x =
      owners es x + (if x ∈ ids then 1 else 0) := by
    intro x
    unfold owners
    rw [List.countP_cons, entryOwns_fresh toks t ids x]
    by_cases hx : x ∈ ids <;> simp [hx]
  have hOwnEsZero : ∀ i ∈ ids, owners es i = 0 := by
    intro i hi
    exact (owners_eq_zero_iff es i).mpr (fun e he => hesFresh e he i hi)
  have hmapids :
      (ids.map (fun i => (⟨i, t, 1, clk, false, false⟩ : Block))).map
        Block.blockId = ids := by
    rw [List.map_map]
    have hco : (Block.blockId ∘ fun i => (⟨i, t, 1, clk, false, false⟩ :
        Block)) = fun i => i := rfl
    rw [hco, List.map_id']
  refine ⟨?_, ?_, ?_, ?_, ?_⟩
  · rw [List.map_append, hmapids]
    refine List.Nodup.append hndb hnd ?_
    intro a ha1 ha2
    obtain ⟨b, hb, rfl⟩ := List.mem_map.mp ha1
    have hlt := h4 b hb
    have hge := hlo _ ha2
    omega
  · intro b hb hpos
    rcases List.mem_append.mp hb with hbs | hnew
    · have hba : b.blockId ∉ ids := by
        intro hc
        have := hlo b.blockId hc
        have := h4 b hbs
        omega
      rw [hOwnCons, if_neg hba, Nat.add_zero]
      exact h1 b hbs hpos
    · obtain ⟨i, hi, rfl⟩ := List.mem_map.mp hnew
      rw [hOwnCons]
      show owners es i + (if i ∈ ids then 1 else 0) = 1
      rw [hOwnEsZero i hi, if_pos hi]
  · intro b hb hpos
    rcases List.mem_append.mp hb with hbs | hnew
    · have hba : b.blockId ∉ ids := by
        intro hc
        have := hlo b.blockId hc
        have := h4 b hbs
        omega
      rw [hOwnCons, if_neg hba, Nat.add_zero] at hpos
      exact h2 b hbs hpos
    · obtain ⟨i, hi, rfl⟩ := List.mem_map.mp hnew
      show 1 ≤ 1
      exact Nat.le.refl
  · intro e he bid hbid
    rcases List.mem_cons.mp he with rfl | hes
    · rw [residentBids_fresh] at hbid
      exact ⟨⟨bid, t, 1, clk, false, false⟩,
        List.mem_append.mpr (Or.inr (List.mem_map.mpr ⟨bid, hbid, rfl⟩)), rfl⟩
    · obtain ⟨b, hb, hbb⟩ := h3 e hes bid hbid
      exact ⟨b, List.mem_append.mpr (Or.inl hb), hbb⟩
  · intro b hb
    rcases List.mem_append.mp hb with hbs | hnew
    · have := h4 b hbs
      omega
    · obtain ⟨i, hi, rfl⟩ := List.mem_map.mp hnew
      show i < nid'
      exact hhi i hi

theorem newIds_nodup (s : BlockStore) (count : Nat) :
    (newIds s count).Nodup := by
  unfold newIds
  exact List.Nodup.map (fun a b hab => by omega) (List.nodup_range count)

theorem newIds_bounds (s : BlockStore) (count : Nat) :
    ∀ i ∈ newIds s count, s.nextId ≤ i ∧ i < s.nextId + count := by
  intro i hi
  unfold newIds at hi
  simp only [List.mem_map, List.mem_range] at hi
  obtain ⟨j, hj, rfl⟩ := hi
  omega

theorem inv_insertEntry (sys : SysState) (toks : List Nat) (count : Nat)
    (t : Tier) (h : Inv sys) : Inv (insertEntry sys toks count t) := by
  unfold insertEntry
  by_cases hc : sys.dir.entries.any (fun e => e.tokens == toks) = true
  · rw [if_pos hc]
    exact h
  · rw [if_neg hc]
    rcases ha : allocate sys t count with err | ⟨sys', ids⟩
    · exact h
    · unfold allocate at ha
      by_cases hcap :
          count ≤ freeCount sys.store t + evictableCount sys.store t
      · rw [if_pos hcap] at ha
        injection ha with hpair
        rw [Prod.mk.injEq] at hpair
        obtain ⟨hA, hB⟩ := hpair
        subst hA
        subst hB
        have hIE : Inv (evictMany sys t (count - freeCount sys.store t)) :=
          inv_evictMany t _ sys h
        show InvParts
          ((evictMany sys t (count - freeCount sys.store t)).store.blocks ++
            (newIds (evictMany sys t
              (count - freeCount sys.store t)).store count).map
              (fun i => (⟨i, t, 1, (evictMany sys t
                (count - freeCount sys.store t)).store.clock,
                false, false⟩ : Block)))
          (⟨toks, (newIds (evictMany sys t
              (count - freeCount sys.store t)).store count).map
              (fun i => BlockRef.present i t)⟩ ::
            (evictMany sys t (count - freeCount sys.store t)).dir.entries)
          ((evictMany sys t (count - freeCount sys.store t)).store.nextId +
            count)
        exact invParts_insert _ _ _ _ _ toks t _
          (newIds_nodup _ _)
          (fun i hi => (newIds_bounds _ _ i hi).1)
          (fun i hi => (newIds_bounds _ _ i hi).2)
          (Nat.le_add_right _ _) hIE
      · rw [if_neg hcap] at ha
        exact absurd ha (by simp)

end KVCore

namespace KVCore

theorem invParts_destroy (bs : List Block) (es : List CacheEntry) (nid : Nat)
    (toks : List Nat)
    (hguard : ∀ e ∈ es, (e.tokens == toks) = true →
      ∀ b ∈ bs, entryOwns e b.blockId = true → b.refCount ≤ 1)
    (h : InvParts bs es nid) :
    InvParts
      (bs.map (fun b => if ownedByMatching es toks b.blockId then
          { b with refCount := b.refCount - 1 } else b))
      (es.filter (fun e => !(e.tokens == toks))) nid := by
  obtain ⟨hnd, h1, h2, h3, h4⟩ := h
  have hid : ∀ b : Block, ((if ownedByMatching es toks b.blockId then
      ({ b with refCount := b.refCount - 1 } : Block) else b)).blockId =
      b.blockId := by
    intro b
    by_cases hom : ownedByMatching es toks b.blockId = true <;> simp [hom]
  have hguard' : ∀ b ∈ bs, ownedByMatching es toks b.blockId = true →
      b.refCount ≤ 1 := by
    intro b hb hom
    obtain ⟨e, he, hpe⟩ := List.any_eq_true.mp hom
    rw [Bool.and_eq_true] at hpe
    exact hguard e he hpe.2 b hb hpe.1
  have hOwn : ∀ x, owners (es.filter (fun e => !(e.tokens == toks))) x =
      es.countP (fun e => entryOwns e x && !(e.tokens == toks)) := by
    intro x
    exact countP_filter_eq es _ _
  have hSplit : ∀ x, owners es x =
      es.countP (fun e => entryOwns e x && (e.tokens == toks)) +
      es.countP (fun e => entryOwns e x && !(e.tokens == toks)) :=
    fun x => countP_split es _ _
  have hAny : ∀ x, ownedByMatching es toks x = true ↔
      0 < es.countP (fun e => entryOwns e x && (e.tokens == toks)) := by
    intro x
    unfold ownedByMatching
    rw [List.any_eq_true, List.countP_pos]
  have hAnyZero : ∀ x, ¬ ownedByMatching es toks x = true →
      es.countP (fun e => entryOwns e x && (e.tokens == toks)) = 0 := by
    intro x hx
    rcases Nat.eq_zero_or_pos
      (es.countP (fun e => entryOwns e x && (e.tokens == toks))) with hz | hp
    · exact hz
    · exact absurd ((hAny x).mpr hp) hx
  refine ⟨?_, ?_, ?_, ?_, ?_⟩
  · have heq : (bs.map (fun b => if ownedByMatching es toks b.blockId then
        ({ b with refCount := b.refCount - 1 } : Block) else b)).map
        Block.blockId = bs.map Block.blockId := by
      rw [List.map_map]
      exact map_eq_of_eq bs _ _ (fun b _ => hid b)
    rw [heq]
    exact hnd
  · intro b' hb' hpos
    obtain ⟨b, hb, rfl⟩ := List.mem_map.mp hb'
    simp only [hid, hOwn]
    by_cases hom : ownedByMatching es toks b.blockId = true
    · have hrc : (if ownedByMatching es toks b.blockId then
          ({ b with refCount := b.refCount - 1 } : Block) else b).refCount =
          b.refCount - 1 := by rw [if_pos hom]
      rw [hrc] at hpos
      have hle := hguard' b hb hom
      exfalso
      omega
    · have hrc : (if ownedByMatching es toks b.blockId then
          ({ b with refCount := b.refCount - 1 } : Block) else b).refCount =
          b.refCount := by rw [if_neg hom]
      rw [hrc] at hpos
      have h1b := h1 b hb hpos
      have hsp := hSplit b.blockId
      have hz := hAnyZero b.blockId hom
      omega
  · intro b' hb' hpos
    obtain ⟨b, hb, rfl⟩ := List.mem_map.mp hb'
    simp only [hid, hOwn] at hpos
    by_cases hom : ownedByMatching es toks b.blockId = true
    · have hle := hguard' b hb hom
      have hposm := (hAny b.blockId).mp hom
      have hsp := hSplit b.blockId
      have hpos2 : 0 < owners es b.blockId := by omega
      have hge := h2 b hb hpos2
      have h1b := h1 b hb (by omega)
      exfalso
      omega
    · have hrc : (if ownedByMatching es toks b.blockId then
          ({ b with refCount := b.refCount - 1 } : Block) else b).refCount =
          b.refCount := by rw [if_neg hom]
      rw [hrc]
      apply h2 b hb
      have hsp := hSplit b.blockId
      omega
  · intro e he bid hbid
    have hef := List.mem_filter.mp he
    obtain ⟨b, hb, hbb⟩ := h3 e hef.1 bid hbid
    refine ⟨(if ownedByMatching es toks b.blockId then
      ({ b with refCount := b.refCount - 1 } : Block) else b),
      List.mem_map.mpr ⟨b, hb, rfl⟩, ?_⟩
    rw [hid b, hbb]
  · intro b' hb'
    obtain ⟨b, hb, rfl⟩ := List.mem_map.mp hb'
    simp only [hid]
    exact h4 b hb

theorem inv_destroyEntry (sys : SysState) (toks : List Nat) (h : Inv sys) :
    Inv (destroyEntry sys toks) := by
  unfold destroyEntry
  by_cases hg : (sys.dir.entries.filter (fun e => e.tokens == toks)).all
      (fun e => sys.store.blocks.all
        (fun b => !(entryOwns e b.blockId) || decide (b.refCount ≤ 1))) =
      true
  · rw [if_pos hg]
    apply invParts_destroy
    · intro e he hm b hb ho
      have h1 := List.all_eq_true.mp hg e (List.mem_filter.mpr ⟨he, hm⟩)
      have h2 := List.all_eq_true.mp h1 b hb
      simp only [Bool.or_eq_true, Bool.not_eq_true', decide_eq_true_eq] at h2
      rcases h2 with h' | h'
      · rw [ho] at h'
        exact absurd h' (by simp)
      · exact h'
    · exact h
  · rw [if_neg hg]
    exact h

theorem inv_setPinned (sys : SysState) (bid : Nat) (p : Bool) (h : Inv sys) :
    Inv (setPinned sys bid p) := by
  apply invParts_map
  · intro b
    by_cases hb : (b.blockId == bid) = true <;> simp [hb]
  · intro b
    by_cases hb : (b.blockId == bid) = true <;> simp [hb]
  · exact h

theorem inv_touchBlock (sys : SysState) (bid : Nat) (h : Inv sys) :
    Inv (touchBlock sys bid) := by
  apply invParts_map
  · intro b
    by_cases hb : (b.blockId == bid) = true <;> simp [hb]
  · intro b
    by_cases hb : (b.blockId == bid) = true <;> simp [hb]
  · exact h

theorem inv_applyOp (sys : SysState) (op : Op) (h : Inv sys) :
    Inv (applyOp sys op) := by
  cases op with
  | insert toks count t => exact inv_insertEntry sys toks count t h
  | destroy toks => exact inv_destroyEntry sys toks h
  | evictLRU t => exact inv_evictOne sys t h
  | pin bid => exact inv_setPinned sys bid true h
  | unpin bid => exact inv_setPinned sys bid false h
  | touch bid => exact inv_touchBlock sys bid h

theorem inv_initSys (g hc r : Nat) : Inv (initSys g hc r) := by
  refine ⟨?_, ?_, ?_, ?_, ?_⟩ <;> simp [initSys]

/-- C1: the ownership invariant — every block with positive reference
count is reachable from exactly one Cache Entry's resident run, a block
any entry's resident run points to has reference count at least one, no
resident reference dangles, and block ids are unique — holds of the
initial (empty) system and is preserved by every quiescent-point
operation (entry insertion, entry destruction, LRU eviction, pin, unpin,
access touch); and a block is eligible for reclamation only when its
reference count is zero. -/
theorem refcount_ownership_invariant (sys : SysState) (op : Op)
    (g hc r : Nat) (b : Block) (hInv : Inv sys) :
    Inv (applyOp sys op) ∧ Inv (initSys g hc r) ∧
      (b.evictable = true → b.refCount = 0) := by
  refine ⟨inv_applyOp sys op hInv, inv_initSys g hc r, ?_⟩
  intro hb
  simp only [Block.evictable, Bool.and_eq_true, Bool.not_eq_true',
    beq_iff_eq] at hb
  exact hb.2

/-- A one-block, one-entry system for the C1 witness: block 0 has
reference count 1 and is owned by the single entry. -/
def invDemoSys : SysState :=
  ⟨⟨1, 1, 1, [⟨0, .gpu, 1, 0, false, false⟩], 1, 1⟩,
   ⟨[⟨[5, 6], [.present 0 .gpu]⟩]⟩⟩

/-- Witness for C1: the invariant holds after pinning block 0 of the
demo system, the empty system satisfies it, and a concrete evictable
block has reference count zero. -/
theorem refcount_ownership_invariant_witness :
    Inv (applyOp invDemoSys (.pin 0)) ∧ Inv (initSys 2 3 4) ∧
      ((⟨9, .host, 0, 0, false, false⟩ : Block).evictable = true →
        (⟨9, .host, 0, 0, false, false⟩ : Block).refCount = 0) :=
  refcount_ownership_invariant invDemoSys (.pin 0) 2 3 4
    ⟨9, .host, 0, 0, false, false⟩ (by decide)

end KVCore
